import Mathlib

/-!
Verification of the document-intake pipeline (Streamlit + Azure services).

Strings are modelled as `List Char` (ASCII fragment of Python `str`).
Python exceptions are modelled as `Except` / explicit error constructors;
the OCR and completion backends and the JSON parser are external
collaborators, modelled as explicit inputs.  All definitions below are
transcribed from `src/app/utils.py` and `src/app/azure_services.py`.
-/

/-- Python `\s` / `str.strip()` whitespace on the ASCII fragment:
space, tab, newline, carriage return, vertical tab, form feed. -/
def isPySpace (c : Char) : Bool :=
  c == ' ' || c == '\t' || c == '\n' || c == '\r' ||
    c == Char.ofNat 11 || c == Char.ofNat 12

/-- Python `str.strip()`: drop leading and trailing whitespace. -/
def pyStrip (s : List Char) : List Char :=
  (((s.dropWhile isPySpace).reverse).dropWhile isPySpace).reverse

/-- ASCII decimal digit test (Python `\d` / `str.isdigit` on ASCII). -/
def isDig (c : Char) : Bool :=
  48 ≤ c.toNat && c.toNat ≤ 57

/-- Numeric value of a decimal digit character (Python `int(d)`). -/
def digitVal (c : Char) : Nat := c.toNat - 48

/-- The anchored regular expression `[1-8]` followed by twelve digits,
i.e. Python `re.match(r"^[1-8]\d{12}$", cnp)` as a full-string match
(13 characters, first in 1..8, the remaining 12 decimal digits). -/
def matchesCnpPattern (s : List Char) : Bool :=
  match s with
  | [] => false
  | c :: rest => (49 ≤ c.toNat && c.toNat ≤ 56) && rest.length == 12 && rest.all isDig

/-- `control_weights` from `validate_cnp` in `src/app/utils.py`. -/
def control_weights : List Nat := [2, 7, 9, 1, 4, 6, 3, 5, 8, 2, 7, 9]

/-- `validate_cnp` from `src/app/utils.py`: reject unless the string
matches `^[1-8]\d{12}$`; then compare the last digit with the weighted
checksum `sum(d[i]*w[i] for i < 12) % 11`, remapping 10 to 1.
(The Python `try/except ValueError` around `int(d)` is unreachable once
the pattern has matched, since all 13 characters are then digits.) -/
def validate_cnp (s : List Char) : Bool :=
  if matchesCnpPattern s then
    let cnp_digits := s.map digitVal
    let control_sum := (List.zipWith (fun a b => a * b) cnp_digits control_weights).sum
    let control_digit := control_sum % 11
    let control_digit := if control_digit == 10 then 1 else control_digit
    cnp_digits.getLast? == some control_digit
  else false

/-- Checksum written from the spec's words: multiply `d[0..11]` by the
weight vector, sum, take mod 11, remap a result of 10 to 1. -/
def cnpChecksum (ds : List Nat) : Nat :=
  let m := (List.zipWith (fun a b => a * b) (ds.take 12) control_weights).sum % 11
  if m = 10 then 1 else m

/-- The backtick character. -/
def btick : Char := Char.ofNat 96

/-- The closing fence `"\n" ++ three backticks`, i.e. the terminator
`\n` followed by three backticks shared by both fence patterns. -/
def nlFence : List Char := '\n' :: btick :: btick :: btick :: []

/-- The opening literal of the tagged pattern: three backticks then `json`. -/
def jsonTag : List Char := btick :: btick :: btick :: 'j' :: 's' :: 'o' :: 'n' :: []

/-- The opening literal of the generic pattern: three backticks. -/
def anyTag : List Char := btick :: btick :: btick :: []

/-- Index of the first occurrence of `pat` in `s` (`None` if absent):
the position at which a lazy group stops growing. -/
def findSub (pat : List Char) : List Char → Option Nat
  | [] => if pat.isEmpty then some 0 else Option.none
  | c :: rest =>
    if pat.isPrefixOf (c :: rest) then some 0
    else (findSub pat rest).map Nat.succ

/-- The lazy group `([\s\S]*?)` followed by the closing fence: the
shortest body whose continuation starts with `nlFence`. -/
def lazyBody (u : List Char) : Option (List Char) :=
  match findSub nlFence u with
  | some q => some (u.take q)
  | Option.none => Option.none

/-- After the greedy `\s*` has consumed `k` characters of `t`, the rest
of the pattern: a literal `\n` and then the lazy body. -/
def fenceTail (t : List Char) (k : Nat) : Option (List Char) :=
  match (t.drop k).head? with
  | some c => if c = '\n' then lazyBody (t.drop (k + 1)) else Option.none
  | Option.none => Option.none

/-- Backtracking of the greedy `\s*`: try consuming `k, k-1, ..., 0`
whitespace characters, first success wins (Python regex semantics). -/
def bestK (t : List Char) : Nat → Option (List Char)
  | 0 => fenceTail t 0
  | Nat.succ k =>
    match fenceTail t (k + 1) with
    | some g => some g
    | Option.none => bestK t k

/-- Attempt to match `tag ++ \s* ++ "\n" ++ lazy body ++ nlFence` at the
start of `s`, returning the captured group.  `\s*` may consume at most
the maximal whitespace run; since `\n` is itself whitespace, a zero-length
run can never be followed by the mandatory `\n`. -/
def matchTagged (tag s : List Char) : Option (List Char) :=
  if tag.isPrefixOf s then
    let t := s.drop tag.length
    match (t.takeWhile isPySpace).length with
    | 0 => Option.none
    | Nat.succ r => bestK t r
  else Option.none

/-- `re.search`: scan positions left to right, first position with a
match wins. -/
def searchFence (tag : List Char) : List Char → Option (List Char)
  | [] => Option.none
  | c :: rest =>
    match matchTagged tag (c :: rest) with
    | some g => some g
    | Option.none => searchFence tag rest

/-- `remove_code_blocks` from `src/app/azure_services.py`: first search
for a ```json-tagged fenced block and return its group stripped; else
search for a generic fenced block and return its group stripped; else
return the whole text stripped. -/
def remove_code_blocks (text : List Char) : List Char :=
  match searchFence jsonTag text with
  | some g => pyStrip g
  | Option.none =>
    match searchFence anyTag text with
    | some g => pyStrip g
    | Option.none => pyStrip text

/-- A heterogeneous "field" as consumed by `get_field_value`:
Python `None`, a plain dict (association list, values either a string
or Python `None`), or an attribute-style object whose optional `value`
attribute is either a string or Python `None`. -/
inductive RawField where
  | pyNone : RawField
  | mapping : List (List Char × Option (List Char)) → RawField
  | fieldObj : Option (Option (List Char)) → RawField
deriving DecidableEq

/-- Python truthiness of `field`: `None` is falsy, a dict is truthy iff
nonempty, a plain object is truthy. -/
def fieldTruthy : RawField → Bool
  | RawField.pyNone => false
  | RawField.mapping d => !d.isEmpty
  | RawField.fieldObj _ => true

/-- Python truthiness of an optional string: `None` and `""` are falsy. -/
def pyTruthyOptStr : Option (List Char) → Bool
  | Option.none => false
  | some s => !s.isEmpty

/-- First-match association-list lookup (Python dict access; dict keys
are unique, so first match is the match). -/
def assocGet {α : Type} (d : List (List Char × α)) (k : List Char) : Option α :=
  match d with
  | [] => Option.none
  | (k', v) :: rest => if k' = k then some v else assocGet rest k

/-- The dict key `"value"`. -/
def valueKey : List Char := "value".toList

/-- Python `field.get("value")`: `None` both when the key is absent and
when it is mapped to `None`. -/
def dictValueEntry (d : List (List Char × Option (List Char))) : Option (List Char) :=
  match assocGet d valueKey with
  | some v => v
  | Option.none => Option.none

/-- `get_field_value` from `src/app/azure_services.py`. -/
def get_field_value (field : RawField) : List Char :=
  if fieldTruthy field then
    match field with
    | RawField.pyNone => []
    | RawField.mapping d =>
      if pyTruthyOptStr (dictValueEntry d) then pyStrip ((dictValueEntry d).getD [])
      else []
    | RawField.fieldObj a =>
      match a with
      | some v => if pyTruthyOptStr v then pyStrip (v.getD []) else []
      | Option.none => []
  else []

/-- Field Value Reader written from the spec's words: absent maps to
`""`; a plain mapping yields its `value` entry trimmed if present and
truthy, else `""`; an attribute-style object yields its `value`
attribute trimmed if present and truthy, else `""`. -/
def fieldReadSpec : RawField → List Char
  | RawField.pyNone => []
  | RawField.mapping d =>
    match dictValueEntry d with
    | some v => if !v.isEmpty then pyStrip v else []
    | Option.none => []
  | RawField.fieldObj a =>
    match a with
    | some (some v) => if !v.isEmpty then pyStrip v else []
    | some Option.none => []
    | Option.none => []

/-- A recognized document instance of the prebuilt-idDocument model:
its `fields` mapping from field names to raw fields. -/
structure OcrDocument where
  fields : List (List Char × RawField)
deriving DecidableEq

/-- `document.fields.get(name)`: the raw field, or Python `None`
(modelled as `RawField.pyNone`) when absent. -/
def docFieldGet (doc : OcrDocument) (k : List Char) : RawField :=
  match assocGet doc.fields k with
  | some f => f
  | Option.none => RawField.pyNone

/-- The backend field name `"FirstName"`. -/
def firstNameKey : List Char := "FirstName".toList

/-- The backend field name `"LastName"`. -/
def lastNameKey : List Char := "LastName".toList

/-- The backend field name `"PersonalNumber"`. -/
def personalNumberKey : List Char := "PersonalNumber".toList

/-- The `extracted_data` dict built by `process_id_document`: each of
the three keys is either absent (`Option.none`) or set. -/
structure ExtractedData where
  first_name : Option (List Char)
  last_name : Option (List Char)
  cnp : Option (List Char)
deriving DecidableEq

/-- One iteration of the `for document in result.documents` loop of
`process_id_document`: the three keys are (over)written from the current
document; `cnp` keeps only the digit characters of the raw value. -/
def idStep (_acc : ExtractedData) (doc : OcrDocument) : ExtractedData :=
  { first_name := some (get_field_value (docFieldGet doc firstNameKey)),
    last_name := some (get_field_value (docFieldGet doc lastNameKey)),
    cnp := some ((get_field_value (docFieldGet doc personalNumberKey)).filter isDig) }

/-- The initial empty `extracted_data = {}` dict. -/
def emptyExtracted : ExtractedData :=
  ⟨Option.none, Option.none, Option.none⟩

/-- The field-extraction loop of `process_id_document` over the list of
recognized documents. -/
def process_id_document (docs : List OcrDocument) : ExtractedData :=
  docs.foldl idStep emptyExtracted

/-- Outcome of a call into an external backend: a value, or a raised
exception carrying `str(e)`. -/
inductive BackendOutcome (α : Type) where
  | ok : α → BackendOutcome α
  | exc : List Char → BackendOutcome α

/-- Result of `process_id_document` at its boundary: the extracted-data
dict, or the `{"error": str(e)}` dict. -/
inductive IdResult where
  | fieldsOut : ExtractedData → IdResult
  | errorOut : List Char → IdResult
deriving DecidableEq

/-- `process_id_document` including its `try/except` boundary: the OCR
backend either returns the recognized documents or raises; the loop body
itself is total (`get_field_value` never raises), so only a backend
exception reaches the `except` clause. -/
def process_id_document_full (b : BackendOutcome (List OcrDocument)) : IdResult :=
  match b with
  | BackendOutcome.ok docs => IdResult.fieldsOut (process_id_document docs)
  | BackendOutcome.exc m => IdResult.errorOut m

/-- The tuple returned by `extract_fields_with_openai`. -/
structure FieldsTuple where
  summary : List Char
  first_name : List Char
  last_name : List Char
  cnp : List Char
deriving DecidableEq

/-- An external JSON parser (`json.loads`): a parsed flat string-valued
mapping, or a `JSONDecodeError` message. -/
def JsonParseFn : Type :=
  List Char → Except (List Char) (List (List Char × List Char))

/-- Message prefix of the generic wrapper
`RuntimeError(f"Error extracting fields with OpenAI: {e}")`. -/
def extractErrP : List Char := "Error extracting fields with OpenAI: ".toList

/-- Message prefix of
`RuntimeError(f"Error parsing JSON from OpenAI response: {jde}")`. -/
def parseErrP : List Char := "Error parsing JSON from OpenAI response: ".toList

/-- Message prefix of
`RuntimeError(f"Error cleaning text with OpenAI: {e}")`. -/
def cleanErrP : List Char := "Error cleaning text with OpenAI: ".toList

/-- The shape-failure message `"OpenAI response is not valid JSON."`. -/
def shapeMsg : List Char := "OpenAI response is not valid JSON.".toList

/-- The opening brace character. -/
def lbrace : Char := Char.ofNat 123

/-- The closing brace character. -/
def rbrace : Char := Char.ofNat 125

/-- Python `content.startswith("\x7b")`. -/
def startsWithLb (s : List Char) : Bool := s.head? == some lbrace

/-- Python `content.endswith("\x7d")`. -/
def endsWithRb (s : List Char) : Bool := s.getLast? == some rbrace

/-- Python `metadata.get(key, "").strip()` on the parsed mapping. -/
def metaGetTrim (m : List (List Char × List Char)) (k : List Char) : List Char :=
  match assocGet m k with
  | some v => pyStrip v
  | Option.none => []

/-- The JSON key `"summary"`. -/
def summaryKey : List Char := "summary".toList

/-- The JSON key `"first_name"`. -/
def firstNameJKey : List Char := "first_name".toList

/-- The JSON key `"last_name"`. -/
def lastNameJKey : List Char := "last_name".toList

/-- The JSON key `"cnp"`. -/
def cnpJKey : List Char := "cnp".toList

/-- `extract_fields_with_openai` from `src/app/azure_services.py`.
The completion call either raises (wrapped by the generic
`except Exception`) or returns content, which is stripped and passed
through `remove_code_blocks`.  If the result does not both start with an
opening brace and end with a closing brace, `RuntimeError("OpenAI response is not valid
JSON.")` is raised and re-wrapped by the generic handler; otherwise the
content is parsed, a `JSONDecodeError` being wrapped with its own
distinct prefix, and the four keys are read with `""` defaults and
stripped. -/
def extract_fields_with_openai (parse : JsonParseFn)
    (r : BackendOutcome (List Char)) : Except (List Char) FieldsTuple :=
  match r with
  | BackendOutcome.exc m => Except.error (extractErrP ++ m)
  | BackendOutcome.ok raw =>
    let content := remove_code_blocks (pyStrip raw)
    if startsWithLb content && endsWithRb content then
      match parse content with
      | Except.error jde => Except.error (parseErrP ++ jde)
      | Except.ok meta =>
        Except.ok ⟨metaGetTrim meta summaryKey, metaGetTrim meta firstNameJKey,
                   metaGetTrim meta lastNameJKey, metaGetTrim meta cnpJKey⟩
    else Except.error (extractErrP ++ shapeMsg)

/-- `clean_text_with_openai` from `src/app/azure_services.py`: the
completion either raises (wrapped as `RuntimeError(f"Error cleaning text
with OpenAI: {e}")`) or returns content, which is stripped and passed
through `remove_code_blocks`. -/
def clean_text_with_openai (r : BackendOutcome (List Char)) :
    Except (List Char) (List Char) :=
  match r with
  | BackendOutcome.ok content => Except.ok (remove_code_blocks (pyStrip content))
  | BackendOutcome.exc m => Except.error (cleanErrP ++ m)

/-- Python `"\n".join(lines)`. -/
def joinWithNl : List (List Char) → List Char
  | [] => []
  | [l] => l
  | l :: ls => l ++ '\n' :: joinWithNl ls

/-- Result of `process_handwritten_document` at its boundary: the result
dict, or the `{"error": str(e)}` dict. -/
inductive HwResult where
  | okOut : List Char → FieldsTuple → HwResult
  | errorOut : List Char → HwResult
deriving DecidableEq

/-- `process_handwritten_document` from `src/app/azure_services.py`,
including its `try/except` boundary.  The OCR backend returns the pages
(each a list of line contents) or raises; the two completion backends
are functions from the prompt text they are shown to their outcome. -/
def process_handwritten_document (parse : JsonParseFn)
    (ocr : BackendOutcome (List (List (List Char))))
    (cleanBackend : List Char → BackendOutcome (List Char))
    (extractBackend : List Char → BackendOutcome (List Char)) : HwResult :=
  match ocr with
  | BackendOutcome.exc m => HwResult.errorOut m
  | BackendOutcome.ok pages =>
    let ocr_text := joinWithNl pages.flatten
    match clean_text_with_openai (cleanBackend ocr_text) with
    | Except.error m => HwResult.errorOut m
    | Except.ok cleaned =>
      match extract_fields_with_openai parse (extractBackend cleaned) with
      | Except.error m => HwResult.errorOut m
      | Except.ok t => HwResult.okOut cleaned t

/-- Concrete recognized document: FirstName `Ana`. -/
def docAna : OcrDocument :=
  ⟨[(firstNameKey, RawField.fieldObj (some (some ("Ana".toList))))]⟩

/-- Concrete recognized document: FirstName `Bob`. -/
def docBob : OcrDocument :=
  ⟨[(firstNameKey, RawField.fieldObj (some (some ("Bob".toList))))]⟩

/-- Concrete recognized document carrying a noisy PersonalNumber. -/
def docNoisy : OcrDocument :=
  ⟨[(personalNumberKey, RawField.fieldObj (some (some ("1 2365 67-890 12 1".toList))))]⟩

/-! ### Helper lemmas -/

lemma zipWith_trunc (f : Nat → Nat → Nat) (w : List Nat) :
    ∀ l : List Nat, List.zipWith f l w = List.zipWith f (l.take w.length) w := by
  induction w with
  | nil => intro l; simp
  | cons b bs ih =>
    intro l
    cases l with
    | nil => simp
    | cons a as => simp [ih as]

lemma zip_weights_take (ds : List Nat) :
    List.zipWith (fun a b => a * b) ds control_weights
      = List.zipWith (fun a b => a * b) (ds.take 12) control_weights := by
  have h := zipWith_trunc (fun a b => a * b) control_weights ds
  simpa [control_weights] using h

/-! ### Claims C1 and C2: the Checksum Validator -/

/-- C1: for every 13-character string matching `^[1-8]\d{12}$`,
`validate_cnp` returns `true` if and only if the last digit `d[12]`
equals the checksum obtained by multiplying `d[0..11]` elementwise by
the weight vector `[2,7,9,1,4,6,3,5,8,2,7,9]`, summing, taking mod 11,
and remapping a result of 10 to 1 (so the mod-11-equals-10 case is
remapped, not rejected). -/
theorem cnp_valid_iff_weighted_checksum (s : List Char)
    (h : matchesCnpPattern s = true) :
    validate_cnp s = true ↔
      (s.map digitVal)[12]? = some (cnpChecksum (s.map digitVal)) := by
  have hlen : (s.map digitVal).length = 13 := by
    cases s with
    | nil => exact absurd h (by simp [matchesCnpPattern])
    | cons c rest =>
      have h2 : rest.length = 12 := by
        simp only [matchesCnpPattern, Bool.and_eq_true, beq_iff_eq] at h
        exact h.1.2
      simp [h2]
  have hsum : (if (List.zipWith (fun a b => a * b) (s.map digitVal) control_weights).sum % 11 == 10
        then 1 else (List.zipWith (fun a b => a * b) (s.map digitVal) control_weights).sum % 11)
      = cnpChecksum (s.map digitVal) := by
    rw [zip_weights_take]
    simp only [cnpChecksum]
    by_cases hx : (List.zipWith (fun a b => a * b) ((s.map digitVal).take 12) control_weights).sum % 11 = 10 <;>
      simp [hx]
  simp only [validate_cnp, h, if_true]
  rw [hsum, beq_iff_eq, List.getLast?_eq_getElem?, hlen]

/-- Witness for C1 at the concrete code `1236567890121`, whose weighted
sum is 263, with `263 % 11 = 10` remapped to the final digit `1`. -/
theorem cnp_valid_iff_weighted_checksum_inst :
    matchesCnpPattern ("1236567890121".toList) = true ∧
      (validate_cnp ("1236567890121".toList) = true ↔
        (("1236567890121".toList).map digitVal)[12]? =
          some (cnpChecksum (("1236567890121".toList).map digitVal))) :=
  ⟨by decide, cnp_valid_iff_weighted_checksum ("1236567890121".toList) (by decide)⟩

/-- C2: for every string that does not match `^[1-8]\d{12}$`,
`validate_cnp` returns `false` (and, being a total function of its
input, raises no exception). -/
theorem cnp_invalid_without_pattern (s : List Char)
    (h : matchesCnpPattern s = false) : validate_cnp s = false := by
  simp [validate_cnp, h]

/-- Witness for C2 at the concrete non-matching inputs `""` (empty),
`"12345"` (wrong length), `"9234567890123"` (first digit outside 1-8)
and `"123456789012a"` (a non-digit character). -/
theorem cnp_invalid_without_pattern_inst :
    (matchesCnpPattern ([]) = false ∧ validate_cnp ([]) = false) ∧
      (matchesCnpPattern ("12345".toList) = false ∧ validate_cnp ("12345".toList) = false) ∧
      (matchesCnpPattern ("9234567890123".toList) = false ∧
        validate_cnp ("9234567890123".toList) = false) ∧
      (matchesCnpPattern ("123456789012a".toList) = false ∧
        validate_cnp ("123456789012a".toList) = false) :=
  ⟨⟨by decide, cnp_invalid_without_pattern ([]) (by decide)⟩,
   ⟨by decide, cnp_invalid_without_pattern ("12345".toList) (by decide)⟩,
   ⟨by decide, cnp_invalid_without_pattern ("9234567890123".toList) (by decide)⟩,
   ⟨by decide, cnp_invalid_without_pattern ("123456789012a".toList) (by decide)⟩⟩

/-! ### Claim C7: the Field Value Reader -/

/-- C7: `get_field_value` never raises (it is a total function of the
modelled field union) and agrees on every input with the spec's reader:
an absent/falsy field yields `""`; a plain mapping yields its `value`
entry trimmed if present and truthy, else `""`; any other object yields
its `value` attribute trimmed if present and truthy, else `""`. -/
theorem field_value_reader_total_spec (f : RawField) :
    get_field_value f = fieldReadSpec f := by
  cases f with
  | pyNone => rfl
  | mapping d =>
    cases d with
    | nil => rfl
    | cons e rest =>
      simp only [get_field_value, fieldTruthy, fieldReadSpec, List.isEmpty_cons,
        Bool.not_false, if_true]
      cases hv : dictValueEntry (e :: rest) with
      | none => simp [pyTruthyOptStr]
      | some v =>
        cases hve : v.isEmpty <;> simp [pyTruthyOptStr, hve]
  | fieldObj a =>
    cases a with
    | none => rfl
    | some v =>
      cases v with
      | none => rfl
      | some s =>
        simp only [get_field_value, fieldTruthy, fieldReadSpec, if_true]
        cases hse : s.isEmpty <;> simp [pyTruthyOptStr, hse]

/-! ### Claims C8, C9 and C10: the ID Document Extractor -/

lemma idStep_const (acc acc' : ExtractedData) (doc : OcrDocument) :
    idStep acc doc = idStep acc' doc := rfl

lemma foldl_idStep_last :
    ∀ (docs : List OcrDocument) (acc : ExtractedData) (d : OcrDocument),
      docs.getLast? = some d → docs.foldl idStep acc = idStep acc d := by
  intro docs
  induction docs with
  | nil => intro acc d h; simp at h
  | cons x rest ih =>
    intro acc d h
    cases rest with
    | nil =>
      simp only [List.getLast?_singleton, Option.some.injEq] at h
      subst h
      rfl
    | cons y ys =>
      rw [List.getLast?_cons_cons] at h
      have hrec := ih (idStep acc x) d h
      rw [List.foldl_cons, hrec]
      exact idStep_const _ _ _

/-- C8: the `cnp` entry of a successful result is exactly the digit
characters of the raw `PersonalNumber` field value of the processed
(i.e. last-iterated) document, in order, all non-digits removed —
`List.filter isDig` keeps exactly the digit characters in order. -/
theorem cnp_entry_digit_filtered (docs : List OcrDocument) (d : OcrDocument)
    (h : docs.getLast? = some d) :
    (process_id_document docs).cnp =
      some ((get_field_value (docFieldGet d personalNumberKey)).filter isDig) := by
  rw [process_id_document, foldl_idStep_last docs emptyExtracted d h]
  rfl

/-- Witness for C8 at a one-document OCR result whose raw
`PersonalNumber` is the noisy string `"1 2365 67-890 12 1"`: the `cnp`
entry equals its digit subsequence `"1236567890121"`. -/
theorem cnp_entry_digit_filtered_inst :
    ([docNoisy].getLast? = some docNoisy) ∧
      ((process_id_document [docNoisy]).cnp =
          some ((get_field_value (docFieldGet docNoisy personalNumberKey)).filter isDig) ∧
        (process_id_document [docNoisy]).cnp = some ("1236567890121".toList)) :=
  ⟨by decide, cnp_entry_digit_filtered [docNoisy] docNoisy (by decide), by decide⟩

/-- C9 counterexample: the claim says the values are read from the
*first* recognized document instance, but with the two concrete
documents `docAna` (FirstName `Ana`) and `docBob` (FirstName `Bob`)
recognized in that order, the result carries `Bob`, not the first
document's `Ana`: each loop iteration overwrites the dict entries. -/
theorem first_document_claim_false :
    (process_id_document [docAna, docBob]).first_name ≠
      some (get_field_value (docFieldGet docAna firstNameKey)) := by
  decide

/-- C9 amended: for every OCR result containing one or more recognized
document instances, `process_id_document` returns the `FirstName`,
`LastName` and `PersonalNumber` values read from the *last* recognized
document instance (which is the first one exactly when a single
document is recognized). -/
theorem id_extractor_uses_last_document (docs : List OcrDocument)
    (d : OcrDocument) (h : docs.getLast? = some d) :
    process_id_document docs =
      { first_name := some (get_field_value (docFieldGet d firstNameKey)),
        last_name := some (get_field_value (docFieldGet d lastNameKey)),
        cnp := some ((get_field_value (docFieldGet d personalNumberKey)).filter isDig) } := by
  rw [process_id_document, foldl_idStep_last docs emptyExtracted d h]
  rfl

/-- Witness for the amended C9 at the concrete two-document input
`[docAna, docBob]`: the extracted triple is the one of `docBob`, the
last recognized document. -/
theorem id_extractor_uses_last_document_inst :
    ([docAna, docBob].getLast? = some docBob) ∧
      process_id_document [docAna, docBob] =
        { first_name := some (get_field_value (docFieldGet docBob firstNameKey)),
          last_name := some (get_field_value (docFieldGet docBob lastNameKey)),
          cnp := some ((get_field_value (docFieldGet docBob personalNumberKey)).filter isDig) } :=
  ⟨by decide, id_extractor_uses_last_document [docAna, docBob] docBob (by decide)⟩

/-- C10: if the OCR backend completes successfully but recognizes zero
document instances, `process_id_document` returns the empty dict: no
`first_name`/`last_name`/`cnp` keys and no `error` key — a non-error
result with no extracted fields. -/
theorem empty_documents_empty_result :
    process_id_document_full (BackendOutcome.ok []) =
      IdResult.fieldsOut ⟨Option.none, Option.none, Option.none⟩ := rfl

/-! ### Claim C5: Text Normalizer search order -/

/-- C5: for every input, `remove_code_blocks` first searches for a
```json-tagged fenced block and, if one exists, returns the first such
block's inner content trimmed; otherwise it searches for a generic
fenced block and returns the first one's inner content trimmed;
otherwise it returns the whole input trimmed.  The tagged search is
consulted first, so it wins whenever both could match. -/
theorem normalizer_search_order (t : List Char) :
    (∀ g, searchFence jsonTag t = some g → remove_code_blocks t = pyStrip g) ∧
      (searchFence jsonTag t = Option.none →
        ∀ g, searchFence anyTag t = some g → remove_code_blocks t = pyStrip g) ∧
      (searchFence jsonTag t = Option.none → searchFence anyTag t = Option.none →
        remove_code_blocks t = pyStrip t) := by
  refine ⟨fun g hg => ?_, fun hn g hg => ?_, fun hn hn' => ?_⟩ <;>
    simp [remove_code_blocks, *]

/-- Witness for C5 at the spec's three concrete vectors: a tagged fence
(whose group `{a:1}` is returned trimmed, and which also contains a
generic fence — the tagged search wins), a generic fence, and a
fenceless input returned as a trimmed passthrough. -/
theorem normalizer_search_order_inst :
    (searchFence jsonTag ("```json\n\x7ba:1\x7d\n```".toList) = some ("\x7ba:1\x7d".toList) ∧
        remove_code_blocks ("```json\n\x7ba:1\x7d\n```".toList) = pyStrip ("\x7ba:1\x7d".toList)) ∧
      (searchFence jsonTag ("```\nraw\n```".toList) = Option.none ∧
        searchFence anyTag ("```\nraw\n```".toList) = some ("raw".toList) ∧
        remove_code_blocks ("```\nraw\n```".toList) = pyStrip ("raw".toList)) ∧
      (searchFence jsonTag ("   x  ".toList) = Option.none ∧
        searchFence anyTag ("   x  ".toList) = Option.none ∧
        remove_code_blocks ("   x  ".toList) = pyStrip ("   x  ".toList)) :=
  ⟨⟨by decide,
      (normalizer_search_order ("```json\n\x7ba:1\x7d\n```".toList)).1
        ("\x7ba:1\x7d".toList) (by decide)⟩,
   ⟨by decide, by decide,
      (normalizer_search_order ("```\nraw\n```".toList)).2.1 (by decide)
        ("raw".toList) (by decide)⟩,
   ⟨by decide, by decide,
      (normalizer_search_order ("   x  ".toList)).2.2 (by decide) (by decide)⟩⟩

/-! ### Claim C3: shape failure in the field-extraction stage -/

lemma getElem6_append (l b : List Char) (h : 6 < l.length) :
    (l ++ b)[6]? = l[6]? := List.getElem?_append_left h

/-- C3: in the field-extraction stage, if the completion content after
normalization does not both begin with an opening brace and end with a
closing brace, the stage fails with the explicit shape-failure message —
for every JSON parser, i.e. before and independently of any parse
attempt — and that message differs from every possible parse-failure
message, so the two outcomes are distinguishable; the failure is an
error value, never an uncaught crash. -/
theorem extract_shape_failure_distinct (parse : JsonParseFn) (raw : List Char)
    (h : (startsWithLb (remove_code_blocks (pyStrip raw)) &&
           endsWithRb (remove_code_blocks (pyStrip raw))) = false) :
    extract_fields_with_openai parse (BackendOutcome.ok raw) =
        Except.error (extractErrP ++ shapeMsg) ∧
      ∀ jde, extractErrP ++ shapeMsg ≠ parseErrP ++ jde := by
  constructor
  · simp only [extract_fields_with_openai, h, Bool.false_eq_true, if_false]
  · intro jde heq
    have h6 : (extractErrP ++ shapeMsg)[6]? = (parseErrP ++ jde)[6]? := by rw [heq]
    rw [getElem6_append extractErrP shapeMsg (by decide),
        getElem6_append parseErrP jde (by decide)] at h6
    exact absurd h6 (by decide)

/-- Witness for C3 at the concrete completion content `"no json here"`,
which remains brace-less after normalization, with an arbitrary parser. -/
theorem extract_shape_failure_distinct_inst :
    ((startsWithLb (remove_code_blocks (pyStrip ("no json here".toList))) &&
        endsWithRb (remove_code_blocks (pyStrip ("no json here".toList)))) = false) ∧
      (extract_fields_with_openai (fun _ => Except.ok [])
            (BackendOutcome.ok ("no json here".toList)) =
          Except.error (extractErrP ++ shapeMsg) ∧
        ∀ jde, extractErrP ++ shapeMsg ≠ parseErrP ++ jde) :=
  ⟨by decide,
   extract_shape_failure_distinct (fun _ => Except.ok []) ("no json here".toList) (by decide)⟩

/-! ### Claim C4: failures are caught at the pipeline boundary -/

/-- C4: every internal failure is caught at the pipeline boundary and
returned as the structured error result carrying the underlying
message, for both pipelines: an OCR backend exception in either
pipeline, a clean-stage completion failure, and any extraction-stage
failure (backend exception, shape failure or parse failure, per C3) all
surface as `errorOut` values — no raw exception escapes. -/
theorem pipelines_catch_failures :
    (∀ m, process_id_document_full (BackendOutcome.exc m) = IdResult.errorOut m) ∧
      (∀ (parse : JsonParseFn) cb eb m,
        process_handwritten_document parse (BackendOutcome.exc m) cb eb =
          HwResult.errorOut m) ∧
      (∀ (parse : JsonParseFn) (pages : List (List (List Char))) cb eb m,
        cb (joinWithNl pages.flatten) = BackendOutcome.exc m →
        process_handwritten_document parse (BackendOutcome.ok pages) cb eb =
          HwResult.errorOut (cleanErrP ++ m)) ∧
      (∀ (parse : JsonParseFn) (pages : List (List (List Char))) cb eb cleaned m,
        clean_text_with_openai (cb (joinWithNl pages.flatten)) = Except.ok cleaned →
        extract_fields_with_openai parse (eb cleaned) = Except.error m →
        process_handwritten_document parse (BackendOutcome.ok pages) cb eb =
          HwResult.errorOut m) := by
  refine ⟨fun m => rfl, fun parse cb eb m => rfl, fun parse pages cb eb m h => ?_,
    fun parse pages cb eb cleaned m h1 h2 => ?_⟩
  · simp [process_handwritten_document, h, clean_text_with_openai]
  · simp [process_handwritten_document, h1, h2]

/-- Witness for C4 at concrete stub backends: an OCR exception in each
pipeline, a raising clean backend, and a raising extraction backend
each yield the structured error dict with the wrapped message. -/
theorem pipelines_catch_failures_inst :
    (process_id_document_full (BackendOutcome.exc ("boom".toList)) =
        IdResult.errorOut ("boom".toList)) ∧
      (process_handwritten_document (fun _ => Except.ok []) (BackendOutcome.exc ("boom".toList))
          (fun _ => BackendOutcome.ok []) (fun _ => BackendOutcome.ok []) =
        HwResult.errorOut ("boom".toList)) ∧
      (process_handwritten_document (fun _ => Except.ok []) (BackendOutcome.ok [])
          (fun _ => BackendOutcome.exc ("boom".toList)) (fun _ => BackendOutcome.ok []) =
        HwResult.errorOut (cleanErrP ++ "boom".toList)) ∧
      (process_handwritten_document (fun _ => Except.ok []) (BackendOutcome.ok [])
          (fun _ => BackendOutcome.ok []) (fun _ => BackendOutcome.exc ("boom".toList)) =
        HwResult.errorOut (extractErrP ++ "boom".toList)) :=
  ⟨pipelines_catch_failures.1 ("boom".toList),
   pipelines_catch_failures.2.1 (fun _ => Except.ok []) (fun _ => BackendOutcome.ok [])
     (fun _ => BackendOutcome.ok []) ("boom".toList),
   pipelines_catch_failures.2.2.1 (fun _ => Except.ok []) []
     (fun _ => BackendOutcome.exc ("boom".toList)) (fun _ => BackendOutcome.ok [])
     ("boom".toList) rfl,
   pipelines_catch_failures.2.2.2 (fun _ => Except.ok []) []
     (fun _ => BackendOutcome.ok []) (fun _ => BackendOutcome.exc ("boom".toList))
     (remove_code_blocks (pyStrip [])) (extractErrP ++ "boom".toList) rfl rfl⟩


/-! ### Claim C6: idempotence of the Text Normalizer

The captured group of a successful fence search never contains the
closing fence `nlFence` (the lazy group stops at the *first*
occurrence), and every successful match requires an occurrence of
`nlFence`; stripping outer whitespace neither creates nor destroys a
match.  These lemmas make that precise. -/

lemma bnot_true {b : Bool} (h : ¬ b = true) : b = false := by
  cases b with
  | false => rfl
  | true => exact absurd rfl h

lemma ipo_nil (l : List Char) : List.isPrefixOf [] l = true := by
  cases l <;> rfl

lemma ipo_append {l₁ l₂ b : List Char} (h : l₁.isPrefixOf l₂ = true) :
    l₁.isPrefixOf (l₂ ++ b) = true := by
  induction l₁ generalizing l₂ with
  | nil => exact ipo_nil _
  | cons c cs ih =>
    cases l₂ with
    | nil => exact absurd h (by simp [List.isPrefixOf])
    | cons d ds =>
      simp only [List.cons_append, List.isPrefixOf, Bool.and_eq_true] at h ⊢
      exact ⟨h.1, ih h.2⟩

lemma ipo_length {l₁ l₂ : List Char} (h : l₁.isPrefixOf l₂ = true) :
    l₁.length ≤ l₂.length := by
  induction l₁ generalizing l₂ with
  | nil => simp
  | cons c cs ih =>
    cases l₂ with
    | nil => exact absurd h (by simp [List.isPrefixOf])
    | cons d ds =>
      simp only [List.isPrefixOf, Bool.and_eq_true] at h
      simpa using ih h.2

lemma ipo_take {pat l : List Char} {m : Nat}
    (h : pat.isPrefixOf (l.take m) = true) : pat.isPrefixOf l = true := by
  induction pat generalizing l m with
  | nil => exact ipo_nil _
  | cons c cs ih =>
    cases m with
    | zero => exact absurd h (by simp [List.isPrefixOf])
    | succ m' =>
      cases l with
      | nil => exact absurd h (by simp [List.isPrefixOf])
      | cons d ds =>
        simp only [List.take_succ_cons, List.isPrefixOf, Bool.and_eq_true] at h ⊢
        exact ⟨h.1, ih h.2⟩

lemma findSub_at {pat u : List Char} {q : Nat} (h : findSub pat u = some q) :
    pat.isPrefixOf (u.drop q) = true := by
  induction u generalizing q with
  | nil =>
    simp only [findSub] at h
    by_cases hemp : pat.isEmpty = true
    · rw [if_pos hemp] at h
      cases h
      have hp : pat = [] := by simpa [List.isEmpty_iff] using hemp
      subst hp
      exact ipo_nil _
    · rw [if_neg hemp] at h
      exact Option.noConfusion h
  | cons c rest ih =>
    simp only [findSub] at h
    by_cases hpre : pat.isPrefixOf (c :: rest) = true
    · rw [if_pos hpre] at h
      cases h
      simpa using hpre
    · rw [if_neg hpre] at h
      cases hq : findSub pat rest with
      | none => rw [hq] at h; exact Option.noConfusion h
      | some q' =>
        rw [hq] at h
        simp only [Option.map_some'] at h
        cases h
        simpa using ih hq

lemma findSub_min {pat u : List Char} {q : Nat} (h : findSub pat u = some q) :
    ∀ j, j < q → pat.isPrefixOf (u.drop j) = false := by
  induction u generalizing q with
  | nil =>
    intro j hj
    simp only [findSub] at h
    by_cases hemp : pat.isEmpty = true
    · rw [if_pos hemp] at h
      cases h
      omega
    · rw [if_neg hemp] at h
      exact Option.noConfusion h
  | cons c rest ih =>
    intro j hj
    simp only [findSub] at h
    by_cases hpre : pat.isPrefixOf (c :: rest) = true
    · rw [if_pos hpre] at h
      cases h
      omega
    · rw [if_neg hpre] at h
      cases hq : findSub pat rest with
      | none => rw [hq] at h; exact Option.noConfusion h
      | some q' =>
        rw [hq] at h
        simp only [Option.map_some'] at h
        cases h
        cases j with
        | zero =>
          simpa using bnot_true hpre
        | succ j' =>
          simpa using ih hq j' (by omega)

lemma findSub_app {pat u b : List Char} {q : Nat} (hne : pat ≠ [])
    (h : findSub pat u = some q) : ∃ q', findSub pat (u ++ b) = some q' := by
  induction u generalizing q with
  | nil =>
    simp only [findSub] at h
    by_cases hemp : pat.isEmpty = true
    · exact absurd (by simpa [List.isEmpty_iff] using hemp) hne
    · rw [if_neg hemp] at h
      exact Option.noConfusion h
  | cons c rest ih =>
    rw [List.cons_append]
    simp only [findSub] at h ⊢
    by_cases hpre2 : pat.isPrefixOf (c :: (rest ++ b)) = true
    · rw [if_pos hpre2]
      exact ⟨0, rfl⟩
    · rw [if_neg hpre2]
      by_cases hpre : pat.isPrefixOf (c :: rest) = true
      · have h2 : pat.isPrefixOf ((c :: rest) ++ b) = true := ipo_append hpre
        rw [List.cons_append] at h2
        exact absurd h2 hpre2
      · rw [if_neg hpre] at h
        cases hq : findSub pat rest with
        | none => rw [hq] at h; exact Option.noConfusion h
        | some q0 =>
          obtain ⟨q'', hq''⟩ := ih hq
          rw [hq'']
          exact ⟨q'' + 1, rfl⟩

lemma take_no_occ {pat u : List Char} {q : Nat} (h : findSub pat u = some q)
    (hne : pat ≠ []) : ∀ j, pat.isPrefixOf ((u.take q).drop j) = false := by
  intro j
  cases hb : pat.isPrefixOf ((u.take q).drop j) with
  | false => rfl
  | true =>
    exfalso
    by_cases hj : j < q
    · rw [List.drop_take q j u] at hb
      have ht := ipo_take hb
      rw [findSub_min h j hj] at ht
      exact Bool.noConfusion ht
    · have hnil : (u.take q).drop j = [] := by
        apply List.drop_eq_nil_of_le
        calc (u.take q).length = min q u.length := List.length_take q u
          _ ≤ q := min_le_left _ _
          _ ≤ j := by omega
      rw [hnil] at hb
      cases pat with
      | nil => exact hne rfl
      | cons c cs => simp [List.isPrefixOf] at hb

lemma lazyBody_some {u g : List Char} (h : lazyBody u = some g) :
    ∃ q, findSub nlFence u = some q ∧ g = u.take q := by
  unfold lazyBody at h
  cases hq : findSub nlFence u with
  | none => rw [hq] at h; exact Option.noConfusion h
  | some q =>
    rw [hq] at h
    simp only [Option.some.injEq] at h
    exact ⟨q, rfl, h.symm⟩

lemma fenceTail_some {t g : List Char} {k : Nat} (h : fenceTail t k = some g) :
    (t.drop k).head? = some '\n' ∧ lazyBody (t.drop (k + 1)) = some g := by
  unfold fenceTail at h
  split at h
  · next c hc =>
    by_cases hn : c = '\n'
    · subst hn
      rw [if_pos rfl] at h
      exact ⟨hc, h⟩
    · rw [if_neg hn] at h
      exact Option.noConfusion h
  · exact Option.noConfusion h

lemma bestK_some {t g : List Char} {n : Nat} (h : bestK t n = some g) :
    ∃ k, k ≤ n ∧ fenceTail t k = some g := by
  induction n with
  | zero =>
    simp only [bestK] at h
    exact ⟨0, le_refl 0, h⟩
  | succ n ih =>
    simp only [bestK] at h
    split at h
    · next g' hf =>
      cases h
      exact ⟨n + 1, le_refl _, hf⟩
    · next hf =>
      obtain ⟨k, hk, hfk⟩ := ih h
      exact ⟨k, by omega, hfk⟩

lemma bestK_isSome {t g : List Char} {k n : Nat} (h : fenceTail t k = some g)
    (hkn : k ≤ n) : ∃ g', bestK t n = some g' := by
  induction n with
  | zero =>
    have hk0 : k = 0 := by omega
    subst hk0
    exact ⟨g, by simp only [bestK]; exact h⟩
  | succ n ih =>
    by_cases hk : k = n + 1
    · subst hk
      exact ⟨g, by simp only [bestK, h]⟩
    · obtain ⟨g', hg'⟩ := ih (by omega)
      cases hf : fenceTail t (n + 1) with
      | none => exact ⟨g', by simp only [bestK, hf]; exact hg'⟩
      | some g'' => exact ⟨g'', by simp only [bestK, hf]⟩

lemma matchTagged_some {tag s g : List Char} (h : matchTagged tag s = some g) :
    tag.isPrefixOf s = true ∧
      ∃ r, ((s.drop tag.length).takeWhile isPySpace).length = r + 1 ∧
        bestK (s.drop tag.length) r = some g := by
  have hp : tag.isPrefixOf s = true := by
    by_contra hp
    unfold matchTagged at h
    rw [if_neg hp] at h
    exact Option.noConfusion h
  refine ⟨hp, ?_⟩
  unfold matchTagged at h
  rw [if_pos hp] at h
  dsimp only at h
  split at h
  · exact Option.noConfusion h
  · next r hr => exact ⟨r, hr, h⟩

lemma tw_len_app (p : Char → Bool) (l b : List Char) :
    (l.takeWhile p).length ≤ ((l ++ b).takeWhile p).length := by
  induction l with
  | nil => simp
  | cons c t ih =>
    rw [List.cons_append]
    cases hc : p c <;> simp [List.takeWhile_cons, hc, ih]

lemma fenceTail_app {t g b : List Char} {k : Nat} (h : fenceTail t k = some g) :
    ∃ g', fenceTail (t ++ b) k = some g' := by
  obtain ⟨hh, hl⟩ := fenceTail_some h
  have hk : k < t.length := by
    by_contra hk
    rw [List.drop_eq_nil_of_le (by omega)] at hh
    exact Option.noConfusion hh
  obtain ⟨rest, hrest⟩ : ∃ rest, t.drop k = '\n' :: rest := by
    cases hdk : t.drop k with
    | nil => rw [hdk] at hh; exact Option.noConfusion hh
    | cons x xs =>
      rw [hdk] at hh
      simp only [List.head?_cons, Option.some.injEq] at hh
      exact ⟨xs, by rw [hh]⟩
  obtain ⟨q, hq, hgq⟩ := lazyBody_some hl
  obtain ⟨q', hq'⟩ := findSub_app (by decide) hq
  have hd : (t ++ b).drop k = '\n' :: (rest ++ b) := by
    rw [List.drop_append_of_le_length (by omega), hrest, List.cons_append]
  have hd1 : (t ++ b).drop (k + 1) = t.drop (k + 1) ++ b :=
    List.drop_append_of_le_length (by omega)
  refine ⟨(t.drop (k + 1) ++ b).take q', ?_⟩
  unfold fenceTail
  rw [hd]
  simp only [List.head?_cons, if_pos]
  rw [hd1]
  unfold lazyBody
  rw [hq']

lemma matchTagged_app {tag s g b : List Char} (h : matchTagged tag s = some g) :
    ∃ g', matchTagged tag (s ++ b) = some g' := by
  obtain ⟨hp, r, hr, hbk⟩ := matchTagged_some h
  have hp2 : tag.isPrefixOf (s ++ b) = true := ipo_append hp
  have hlen : tag.length ≤ s.length := ipo_length hp
  have hd : (s ++ b).drop tag.length = s.drop tag.length ++ b :=
    List.drop_append_of_le_length hlen
  obtain ⟨k, hk, hft⟩ := bestK_some hbk
  obtain ⟨g2, hg2⟩ := fenceTail_app (b := b) hft
  have hrun : r + 1 ≤ (((s ++ b).drop tag.length).takeWhile isPySpace).length := by
    rw [hd, ← hr]
    exact tw_len_app isPySpace (s.drop tag.length) b
  obtain ⟨r2, hr2⟩ : ∃ r2, (((s ++ b).drop tag.length).takeWhile isPySpace).length = r2 + 1 :=
    ⟨(((s ++ b).drop tag.length).takeWhile isPySpace).length - 1, by omega⟩
  have hft2 : fenceTail ((s ++ b).drop tag.length) k = some g2 := by
    rw [hd]; exact hg2
  obtain ⟨g3, hg3⟩ := bestK_isSome hft2 (show k ≤ r2 by omega)
  refine ⟨g3, ?_⟩
  unfold matchTagged
  rw [if_pos hp2]
  dsimp only
  rw [hr2]
  exact hg3

lemma searchFence_ex {tag s g : List Char} (h : searchFence tag s = some g) :
    ∃ a s', a ++ s' = s ∧ matchTagged tag s' = some g := by
  induction s with
  | nil =>
    simp only [searchFence] at h
    exact Option.noConfusion h
  | cons c rest ih =>
    simp only [searchFence] at h
    split at h
    · next g' hm =>
      cases h
      exact ⟨[], c :: rest, rfl, hm⟩
    · next hm =>
      obtain ⟨a, s', ha, hm'⟩ := ih h
      exact ⟨c :: a, s', by rw [List.cons_append, ha], hm'⟩

lemma searchFence_of_sfx {tag g : List Char} (hne : tag ≠ [])
    (a s' : List Char) (hm : matchTagged tag s' = some g) :
    ∃ g', searchFence tag (a ++ s') = some g' := by
  induction a with
  | nil =>
    rw [List.nil_append]
    cases s' with
    | nil =>
      exfalso
      obtain ⟨hp, _⟩ := matchTagged_some hm
      cases tag with
      | nil => exact hne rfl
      | cons c cs => simp [List.isPrefixOf] at hp
    | cons c rest =>
      simp only [searchFence]
      rw [hm]
      exact ⟨g, rfl⟩
  | cons x a' ih =>
    rw [List.cons_append]
    simp only [searchFence]
    obtain ⟨g', hg'⟩ := ih
    cases hmt : matchTagged tag (x :: (a' ++ s')) with
    | some g2 => exact ⟨g2, rfl⟩
    | none => exact ⟨g', hg'⟩

lemma drop_pre (a r : List Char) (j : Nat) :
    (a ++ r).drop (a.length + j) = r.drop j := by
  rw [← List.drop_drop, List.drop_left]

lemma searchFence_occ {tag s g : List Char} (h : searchFence tag s = some g) :
    ∃ j, nlFence.isPrefixOf (s.drop j) = true := by
  obtain ⟨a, s', ha, hm⟩ := searchFence_ex h
  obtain ⟨hp, r, hr, hbk⟩ := matchTagged_some hm
  obtain ⟨k, hk, hft⟩ := bestK_some hbk
  obtain ⟨hh, hl⟩ := fenceTail_some hft
  obtain ⟨q, hq, hgq⟩ := lazyBody_some hl
  have hat := findSub_at hq
  refine ⟨a.length + (tag.length + ((k + 1) + q)), ?_⟩
  rw [← ha, drop_pre]
  rw [List.drop_drop, List.drop_drop] at hat
  exact hat

lemma no_occ_search_none {tag s : List Char}
    (h : ∀ j, nlFence.isPrefixOf (s.drop j) = false) :
    searchFence tag s = Option.none := by
  cases hs : searchFence tag s with
  | none => rfl
  | some g =>
    obtain ⟨j, hj⟩ := searchFence_occ hs
    rw [h j] at hj
    exact Bool.noConfusion hj

lemma searchFence_group_no_occ {tag s g : List Char}
    (h : searchFence tag s = some g) :
    ∀ j, nlFence.isPrefixOf (g.drop j) = false := by
  obtain ⟨a, s', ha, hm⟩ := searchFence_ex h
  obtain ⟨hp, r, hr, hbk⟩ := matchTagged_some hm
  obtain ⟨k, hk, hft⟩ := bestK_some hbk
  obtain ⟨hh, hl⟩ := fenceTail_some hft
  obtain ⟨q, hq, hgq⟩ := lazyBody_some hl
  subst hgq
  exact take_no_occ hq (by decide)

lemma dw_dw (p : Char → Bool) (l : List Char) :
    (l.dropWhile p).dropWhile p = l.dropWhile p := by
  induction l with
  | nil => rfl
  | cons c t ih =>
    cases hc : p c <;> simp [List.dropWhile_cons, hc, ih]

lemma dw_len (p : Char → Bool) (l : List Char) :
    (l.dropWhile p).length ≤ l.length := by
  induction l with
  | nil => simp
  | cons c t ih =>
    cases hc : p c
    · simp [List.dropWhile_cons, hc]
    · simp only [List.dropWhile_cons, hc, if_true]
      calc (t.dropWhile p).length ≤ t.length := ih
        _ ≤ (c :: t).length := by simp

lemma dw_cons_false {p : Char → Bool} {c : Char} {t : List Char} (h : p c = false) :
    (c :: t).dropWhile p = c :: t := by
  simp [List.dropWhile_cons, h]

lemma dw_fixed_head {p : Char → Bool} {c : Char} {t : List Char}
    (h : (c :: t).dropWhile p = c :: t) : p c = false := by
  cases hc : p c
  · rfl
  · exfalso
    rw [List.dropWhile_cons, if_pos hc] at h
    have hlen := dw_len p t
    rw [h] at hlen
    simp only [List.length_cons] at hlen
    omega

lemma pyStrip_decomp (s : List Char) : ∃ a b, a ++ pyStrip s ++ b = s := by
  refine ⟨s.takeWhile isPySpace,
    ((s.dropWhile isPySpace).reverse.takeWhile isPySpace).reverse, ?_⟩
  conv_rhs => rw [← List.takeWhile_append_dropWhile isPySpace s]
  rw [List.append_assoc]
  congr 1
  have h2 := congrArg List.reverse
    (List.takeWhile_append_dropWhile isPySpace (s.dropWhile isPySpace).reverse)
  rw [List.reverse_append, List.reverse_reverse] at h2
  exact h2

lemma pyStrip_idem (s : List Char) : pyStrip (pyStrip s) = pyStrip s := by
  have hrev : (pyStrip s).reverse.dropWhile isPySpace = (pyStrip s).reverse := by
    unfold pyStrip
    rw [List.reverse_reverse]
    exact dw_dw isPySpace _
  have hhead : (pyStrip s).dropWhile isPySpace = pyStrip s := by
    have hps : pyStrip s = ((s.dropWhile isPySpace).reverse.dropWhile isPySpace).reverse := rfl
    cases hv : pyStrip s with
    | nil => rfl
    | cons c t =>
      have h2 := congrArg List.reverse
        (List.takeWhile_append_dropWhile isPySpace (s.dropWhile isPySpace).reverse)
      rw [List.reverse_append, List.reverse_reverse, ← hps, hv, List.cons_append] at h2
      have hu : (s.dropWhile isPySpace).dropWhile isPySpace = s.dropWhile isPySpace :=
        dw_dw _ _
      rw [← h2] at hu
      exact dw_cons_false (dw_fixed_head hu)
  have houter : pyStrip (pyStrip s) = ((pyStrip s).reverse.dropWhile isPySpace).reverse := by
    show ((((pyStrip s).dropWhile isPySpace).reverse).dropWhile isPySpace).reverse = _
    rw [hhead]
  rw [houter, hrev, List.reverse_reverse]

lemma occ_transfer {a v b s : List Char} (hs : a ++ v ++ b = s) {j : Nat}
    (h : nlFence.isPrefixOf (v.drop j) = true) :
    ∃ j', nlFence.isPrefixOf (s.drop j') = true := by
  have hj : j < v.length := by
    by_contra hj
    rw [List.drop_eq_nil_of_le (by omega)] at h
    simp [nlFence, List.isPrefixOf] at h
  refine ⟨a.length + j, ?_⟩
  rw [← hs, List.append_assoc, drop_pre]
  rw [List.drop_append_of_le_length (by omega)]
  exact ipo_append h

lemma strip_no_occ {s : List Char}
    (h : ∀ j, nlFence.isPrefixOf (s.drop j) = false) :
    ∀ j, nlFence.isPrefixOf ((pyStrip s).drop j) = false := by
  intro j
  cases hb : nlFence.isPrefixOf ((pyStrip s).drop j) with
  | false => rfl
  | true =>
    exfalso
    obtain ⟨a, b, hab⟩ := pyStrip_decomp s
    obtain ⟨j', hj'⟩ := occ_transfer hab hb
    rw [h j'] at hj'
    exact Bool.noConfusion hj'

lemma search_none_strip {tag s : List Char} (hne : tag ≠ [])
    (h : searchFence tag s = Option.none) :
    searchFence tag (pyStrip s) = Option.none := by
  cases hps : searchFence tag (pyStrip s) with
  | none => rfl
  | some g =>
    exfalso
    obtain ⟨a', s', ha', hm⟩ := searchFence_ex hps
    obtain ⟨a, b, hab⟩ := pyStrip_decomp s
    obtain ⟨g2, hg2⟩ := matchTagged_app (b := b) hm
    obtain ⟨g3, hg3⟩ := searchFence_of_sfx hne (a ++ a') (s' ++ b) hg2
    have hs : (a ++ a') ++ (s' ++ b) = s := by
      rw [← hab, ← ha']
      simp [List.append_assoc]
    rw [hs, h] at hg3
    exact Option.noConfusion hg3

/-- C6: the Text Normalizer is idempotent — applying
`remove_code_blocks` to its own output returns that output unchanged,
for every input string. -/
theorem normalizer_idem (t : List Char) :
    remove_code_blocks (remove_code_blocks t) = remove_code_blocks t := by
  cases h1 : searchFence jsonTag t with
  | some g =>
    have ht : remove_code_blocks t = pyStrip g := by
      unfold remove_code_blocks
      rw [h1]
    have hno' := strip_no_occ (searchFence_group_no_occ h1)
    have e1 : searchFence jsonTag (pyStrip g) = Option.none := no_occ_search_none hno'
    have e2 : searchFence anyTag (pyStrip g) = Option.none := no_occ_search_none hno'
    rw [ht]
    unfold remove_code_blocks
    rw [e1, e2]
    exact pyStrip_idem g
  | none =>
    cases h2 : searchFence anyTag t with
    | some g =>
      have ht : remove_code_blocks t = pyStrip g := by
        unfold remove_code_blocks
        rw [h1, h2]
      have hno' := strip_no_occ (searchFence_group_no_occ h2)
      have e1 : searchFence jsonTag (pyStrip g) = Option.none := no_occ_search_none hno'
      have e2 : searchFence anyTag (pyStrip g) = Option.none := no_occ_search_none hno'
      rw [ht]
      unfold remove_code_blocks
      rw [e1, e2]
      exact pyStrip_idem g
    | none =>
      have ht : remove_code_blocks t = pyStrip t := by
        unfold remove_code_blocks
        rw [h1, h2]
      have e1 : searchFence jsonTag (pyStrip t) = Option.none :=
        search_none_strip (by decide) h1
      have e2 : searchFence anyTag (pyStrip t) = Option.none :=
        search_none_strip (by decide) h2
      rw [ht]
      unfold remove_code_blocks
      rw [e1, e2]
      exact pyStrip_idem t
